import Mathlib

/-!
Verification development for the regularized RBF interpolation engine
in rbf/interpolant.py.  Real numbers of the source are modelled by the
rationals, so all arithmetic is exact.  The radial basis evaluator and
the polynomial term generator live in modules that are not part of the
sources at hand; they are modelled from the specification, as noted on
the corresponding definitions.
-/

namespace RBF

open Matrix

/-- An executable determinant by Laplace expansion along the first
row; it agrees with the Mathlib determinant. -/
def detQ : {n : ℕ} → Matrix (Fin n) (Fin n) ℚ → ℚ
  | 0, _ => 1
  | n + 1, M =>
    ∑ j : Fin (n + 1), (-1) ^ (j : ℕ) * M 0 j * detQ (M.submatrix Fin.succ j.succAbove)

theorem detQ_eq_det : ∀ {n : ℕ} (M : Matrix (Fin n) (Fin n) ℚ), detQ M = M.det
  | 0, M => by rw [detQ, Matrix.det_fin_zero]
  | _ + 1, M => by
    rw [detQ, Matrix.det_succ_row_zero]
    exact Finset.sum_congr rfl fun j _ => by rw [detQ_eq_det]

/-- An executable adjugate through signed minors; it agrees with the
Mathlib adjugate. -/
def adjQ : {n : ℕ} → Matrix (Fin n) (Fin n) ℚ → Matrix (Fin n) (Fin n) ℚ
  | 0, _ => 1
  | n + 1, M => Matrix.of fun i j : Fin (n + 1) =>
      (-1) ^ ((j : ℕ) + (i : ℕ)) * detQ (M.submatrix j.succAbove i.succAbove)

theorem adjQ_eq_adjugate : ∀ {n : ℕ} (M : Matrix (Fin n) (Fin n) ℚ), adjQ M = M.adjugate
  | 0, M => by
    ext i
    exact i.elim0
  | _ + 1, M => by
    ext i j
    rw [adjQ, Matrix.of_apply, detQ_eq_det, Matrix.adjugate_fin_succ_eq_det_submatrix]

/-- Shallow embedding of matrix inversion as performed by
scipy.linalg.inv on a nonsingular matrix: over a field the formula
det⁻¹ • adjugate agrees with the Mathlib inverse everywhere. -/
def matInv {n : ℕ} (A : Matrix (Fin n) (Fin n) ℚ) : Matrix (Fin n) (Fin n) ℚ :=
  (detQ A)⁻¹ • adjQ A

theorem matInv_eq_inv {n : ℕ} (A : Matrix (Fin n) (Fin n) ℚ) : matInv A = A⁻¹ := by
  rw [matInv, detQ_eq_det, adjQ_eq_adjugate, Matrix.inv_def, Ring.inverse_eq_inv]

/-- Embedding of product_trace from interpolant.py: np.sum of the
entrywise product of A and the transpose of B. -/
def product_trace {M : ℕ} (A B : Matrix (Fin M) (Fin M) ℚ) : ℚ :=
  ∑ i, ∑ j, A i j * Bᵀ i j

theorem product_trace_eq_trace {M : ℕ} (A B : Matrix (Fin M) (Fin M) ℚ) :
    product_trace A B = (A * B).trace := by
  simp [product_trace, Matrix.trace, Matrix.diag, Matrix.mul_apply, Matrix.transpose_apply]

/-- Modelled from the spec: rbf.poly is not among the sources.  All
D-tuples of non-negative integers with the given sum, in a fixed
deterministic order. -/
def tuplesSum : (D : ℕ) → ℕ → List (Fin D → ℕ)
  | 0, 0 => [fun i => i.elim0]
  | 0, _ + 1 => []
  | D + 1, s => (List.range (s + 1)).flatMap fun a => (tuplesSum D (s - a)).map (Fin.cons a)

/-- Modelled from the spec: rbf.poly.monomial_powers enumerates all
D-tuples of non-negative integers with sum at most order, in a fixed
deterministic (graded) order that is identical across calls. -/
def monomial_powers (order D : ℕ) : List (Fin D → ℕ) :=
  (List.range (order + 1)).flatMap fun k => tuplesSum D k

/-- Number of polynomial terms P for a given order and dimension. -/
def numPoly (order D : ℕ) : ℕ := (monomial_powers order D).length

/-- Modelled from the spec: value of the k-th derivative of the
monomial t ^ p, namely the falling-factorial-scaled reduced monomial,
zero when the derivative order exceeds the exponent. -/
def monoDeriv (t : ℚ) (p k : ℕ) : ℚ :=
  if k ≤ p then (p.descFactorial k : ℚ) * t ^ (p - k) else 0

/-- Modelled from the spec: rbf.poly.mvmonos evaluates (or
differentiates, according to the multi-index diff) every monomial of
monomial_powers at every point of x. -/
def mvmonos {I D : ℕ} (x : Matrix (Fin I) (Fin D) ℚ) (order : ℕ) (diff : Fin D → ℕ) :
    Matrix (Fin I) (Fin (numPoly order D)) ℚ :=
  Matrix.of fun i j =>
    ∏ d, monoDeriv (x i d) ((monomial_powers order D).getD (j : ℕ) (fun _ => 0) d) (diff d)

/-- A pointwise radial-basis kernel: value at a pair of points, given
the shape parameter of the second (center) point and a derivative
multi-index.  Modelled from the spec: rbf.basis is not among the
sources; the Basis Evaluator returns a matrix of kernel values, one per
pair of points. -/
def Kernel (D : ℕ) : Type :=
  (Fin D → ℚ) → (Fin D → ℚ) → ℚ → (Fin D → ℕ) → ℚ

/-- Modelled from the spec: the matrix returned by a basis evaluator
call basis(xa, xb, eps, diff), with one row per point of xa and one
column per center of xb.  A missing diff argument in the source is the
all-zero multi-index. -/
def basisMatrix {I N D : ℕ} (φ : Kernel D) (xa : Matrix (Fin I) (Fin D) ℚ)
    (xb : Matrix (Fin N) (Fin D) ℚ) (eps : Fin N → ℚ) (diff : Fin D → ℕ) :
    Matrix (Fin I) (Fin N) ℚ :=
  Matrix.of fun i j => φ (xa i) (xb j) (eps j) diff

/-- Embedding of coefficient_matrix: the (N+P) by (N+P) saddle-point
matrix, assembled exactly as in the source by filling a zero matrix
with the basis block, the monomial block and its transpose. -/
def coefficient_matrix {N D : ℕ} (φ : Kernel D) (x : Matrix (Fin N) (Fin D) ℚ)
    (eps : Fin N → ℚ) (order : ℕ) :
    Matrix (Fin (N + numPoly order D)) (Fin (N + numPoly order D)) ℚ :=
  Matrix.of fun i j =>
    if hi : (i : ℕ) < N then
      if hj : (j : ℕ) < N then
        basisMatrix φ x x eps (fun _ => 0) ⟨i, hi⟩ ⟨j, hj⟩
      else
        mvmonos x order (fun _ => 0) ⟨i, hi⟩ ⟨(j : ℕ) - N, by have := j.isLt; omega⟩
    else
      if hj : (j : ℕ) < N then
        mvmonos x order (fun _ => 0) ⟨j, hj⟩ ⟨(i : ℕ) - N, by have := i.isLt; omega⟩
      else 0

/-- Embedding of regularization_matrix: the N by (N+P) block row of
differentiated basis and monomial values at the training points. -/
def regularization_matrix {N D : ℕ} (φ : Kernel D) (x : Matrix (Fin N) (Fin D) ℚ)
    (eps : Fin N → ℚ) (order : ℕ) (diff : Fin D → ℕ) :
    Matrix (Fin N) (Fin (N + numPoly order D)) ℚ :=
  Matrix.of fun i j =>
    if hj : (j : ℕ) < N then
      basisMatrix φ x x eps diff i ⟨j, hj⟩
    else
      mvmonos x order diff i ⟨(j : ℕ) - N, by have := j.isLt; omega⟩

/-- Embedding of interpolation_matrix: the cross matrix between query
points xitp and training points x, sharing the column layout of the
coefficient matrix. -/
def interpolation_matrix {I N D : ℕ} (φ : Kernel D) (xitp : Matrix (Fin I) (Fin D) ℚ)
    (x : Matrix (Fin N) (Fin D) ℚ) (eps : Fin N → ℚ) (order : ℕ) (diff : Fin D → ℕ) :
    Matrix (Fin I) (Fin (N + numPoly order D)) ℚ :=
  Matrix.of fun i j =>
    if hj : (j : ℕ) < N then
      basisMatrix φ xitp x eps diff i ⟨j, hj⟩
    else
      mvmonos xitp order diff i ⟨(j : ℕ) - N, by have := j.isLt; omega⟩

/-- Embedding of laplacian_diff_op: one unit-coefficient term per
spatial dimension, each carrying the pure second derivative in that
direction. -/
def laplacian_diff_op (D : ℕ) : List (ℚ × (Fin D → ℕ)) :=
  (List.finRange D).map fun i => (1, fun d => if d = i then 2 else 0)

/-- The damping argument of find_coeff: either a fixed numeric value or
the string sentinel gcv requesting automatic selection. -/
inductive Damping where
  | fixed (s : ℚ)
  | gcv
  deriving DecidableEq

/-- Abstract interface for the numeric facilities used only by the GCV
branch: the base-ten exponential and the derivative-free scalar
minimizer scipy.optimize.fmin (objective and initial guess). -/
structure GCVOracle where
  pow10 : ℚ → ℚ
  fmin : (ℚ → ℚ) → ℚ → ℚ

/-- Solver failures from the error taxonomy of the spec. -/
inductive SolverErr where
  | singularSystem
  | illConditioned
  deriving DecidableEq

/-- The observation vector of length N zero-padded to length M, as done
by the np.concatenate call in find_coeff. -/
def padValue {N M : ℕ} (h : N ≤ M) (value : Fin N → ℚ) : Fin M → ℚ :=
  fun i => if hi : (i : ℕ) < N then value ⟨i, hi⟩ else 0

/-- Embedding of the inner function predictive_error of find_coeff: the
generalized cross validation score at log-damping d. -/
def predictive_error {M : ℕ} (O : GCVOracle) (ATA LTL A : Matrix (Fin M) (Fin M) ℚ)
    (value : Fin M → ℚ) (d : ℚ) : ℚ :=
  let dd := O.pow10 d
  let A_ginv := matInv (ATA + dd ^ 2 • LTL) * Aᵀ
  let coeff := A_ginv.mulVec value
  let predicted := A.mulVec coeff
  let residual := predicted - value
  let misfit := Matrix.dotProduct residual residual
  ((M : ℚ) * misfit) / (((M : ℚ) - product_trace A A_ginv) ^ 2)

/-- Embedding of find_coeff.  The value vector is padded with zeros up
to the size of the augmented matrix, the Gram matrices are formed, the
damping is either taken as given or selected by minimizing the GCV
score over the log-scaled damping variable, and the damped normal
equations are solved.  A singular system surfaces as an error, as the
scipy inversion raises in that case. -/
def find_coeff {M K N : ℕ} (O : GCVOracle) (A : Matrix (Fin M) (Fin M) ℚ)
    (L : Matrix (Fin K) (Fin M) ℚ) (value : Fin N → ℚ) (h : N ≤ M)
    (damping : Damping) : Except SolverErr (Fin M → ℚ) :=
  let v := padValue h value
  let ATA := Aᵀ * A
  let LTL := Lᵀ * L
  let damp : ℚ :=
    match damping with
    | .fixed s => s
    | .gcv => O.pow10 (O.fmin (predictive_error O ATA LTL A v) 0)
  let G := ATA + damp ^ 2 • LTL
  if detQ G = 0 then .error .singularSystem
  else .ok ((matInv G * Aᵀ).mulVec v)

/-- Embedding of the weight scaling step of RBFInterpolant: the rows of
the coefficient matrix that correspond to data points (the first N) are
multiplied by the weights, the polynomial constraint rows are left as
they are. -/
def fitA {N D : ℕ} (φ : Kernel D) (x : Matrix (Fin N) (Fin D) ℚ) (eps : Fin N → ℚ)
    (order : ℕ) (weight : Fin N → ℚ) :
    Matrix (Fin (N + numPoly order D)) (Fin (N + numPoly order D)) ℚ :=
  Matrix.of fun i j =>
    if hi : (i : ℕ) < N then weight ⟨i, hi⟩ * coefficient_matrix φ x eps order i j
    else coefficient_matrix φ x eps order i j

/-- Embedding of the in-place observation scaling of RBFInterpolant:
value entries multiplied entrywise by the weights. -/
def fitValue {N : ℕ} (value weight : Fin N → ℚ) : Fin N → ℚ :=
  fun i => value i * weight i

/-- Embedding of the regularization matrix built by RBFInterpolant: the
sum, over the terms of the Laplacian differential operator, of the
scaled differentiated regularization matrices. -/
def fitL {N D : ℕ} (φ : Kernel D) (x : Matrix (Fin N) (Fin D) ℚ) (eps : Fin N → ℚ)
    (order : ℕ) : Matrix (Fin N) (Fin (N + numPoly order D)) ℚ :=
  ((laplacian_diff_op D).map fun cd => cd.1 • regularization_matrix φ x eps order cd.2).sum

/-- The state produced by the RBFInterpolant constructor.  The fields
mirror the attributes stored on self; coeff is the solver outcome.  The
extra field valueBuf models the final contents of the caller-provided
observation array, which the constructor multiplies in place by the
weights without copying it first. -/
structure InitResult (N D P : ℕ) where
  x : Matrix (Fin N) (Fin D) ℚ
  coeff : Except SolverErr (Fin (N + P) → ℚ)
  order : ℕ
  eps : Fin N → ℚ
  extrapolate : Bool
  fill : ℚ
  valueBuf : Fin N → ℚ

/-- Embedding of the RBFInterpolant constructor: defaults for weights
and shape parameters, assembly of the weighted augmented matrix, the
scaled observations and the Laplacian regularization matrix, and the
damped least-squares solve. -/
def rbfinit {N D : ℕ} (O : GCVOracle) (φ : Kernel D) (x : Matrix (Fin N) (Fin D) ℚ)
    (value : Fin N → ℚ) (weight eps : Option (Fin N → ℚ)) (order : ℕ)
    (extrapolate : Bool) (fill : ℚ) (penalty : Damping) :
    InitResult N D (numPoly order D) :=
  let epsA := eps.getD fun _ => 1
  let w := weight.getD fun _ => 1
  let A := fitA φ x epsA order w
  let val := fitValue value w
  let L := fitL φ x epsA order
  let coeff := find_coeff O A L val (Nat.le_add_right N _) penalty
  ⟨x, coeff, order, epsA, extrapolate, fill, val⟩

/-- The minimum of a nonempty numpy array, as np.min computes it; the
value on the empty list is irrelevant (np.min raises there). -/
def npMin : List ℚ → ℚ
  | [] => 0
  | a :: t => t.foldl min a

/-- The maximum of a nonempty numpy array, as np.max computes it; the
value on the empty list is irrelevant (np.max raises there). -/
def npMax : List ℚ → ℚ
  | [] => 0
  | a :: t => t.foldl max a

/-- All entries of a matrix as a flat list, row by row. -/
def entriesList {n D : ℕ} (hull : Matrix (Fin n) (Fin D) ℚ) : List ℚ :=
  (List.finRange n).flatMap fun i => (List.finRange D).map fun j => hull i j

/-- Embedding of in_hull.  In dimension at least two the membership
test delegates to the Delaunay triangulation of scipy, modelled from
the spec as an abstract containment oracle over the query point; in
dimension one a query point is inside exactly when it lies between the
minimum and the maximum of the hull entries, bounds included. -/
def in_hull {Q n d : ℕ} (oracle : (Fin (d + 1) → ℚ) → Bool)
    (p : Matrix (Fin Q) (Fin (d + 1)) ℚ) (hull : Matrix (Fin n) (Fin (d + 1)) ℚ) :
    Fin Q → Bool :=
  if 2 ≤ d + 1 then fun i => oracle (p i)
  else fun i =>
    decide (npMin (entriesList hull) ≤ p i 0 ∧ p i 0 ≤ npMax (entriesList hull))

/-- The block of query points with indices n, n+1, ..., n+len-1. -/
def chunkPts {Q D : ℕ} (xitp : Matrix (Fin Q) (Fin D) ℚ) (n len : ℕ) (h : n + len ≤ Q) :
    Matrix (Fin len) (Fin D) ℚ :=
  Matrix.of fun k dd => xitp ⟨n + (k : ℕ), by have := k.isLt; omega⟩ dd

/-- Embedding of the while loop of RBFInterpolant evaluation: starting
at index n, each pass takes the next chunk of at most step query
points, builds its interpolation matrix, and writes the product with
the stored coefficients into the output slots of the chunk.  The source
loops forever when the chunk size is zero; the model returns the
current output in that case, and every claim assumes a positive chunk
size. -/
def evalLoop {Q N D : ℕ} (φ : Kernel D) (x : Matrix (Fin N) (Fin D) ℚ) (eps : Fin N → ℚ)
    (order : ℕ) (diff : Fin D → ℕ) (coeff : Fin (N + numPoly order D) → ℚ)
    (xitp : Matrix (Fin Q) (Fin D) ℚ) (step : ℕ) (n : ℕ) (out : Fin Q → ℚ) : Fin Q → ℚ :=
  if h : n < Q ∧ 0 < step then
    evalLoop φ x eps order diff coeff xitp step (n + step) (fun i =>
      if hi : n ≤ (i : ℕ) ∧ (i : ℕ) < n + (min (n + step) Q - n) then
        (interpolation_matrix φ
            (chunkPts xitp n (min (n + step) Q - n) (by omega)) x eps order diff).mulVec
          coeff ⟨(i : ℕ) - n, by omega⟩
      else out i)
  else out
termination_by Q - n
decreasing_by omega

/-- The chunk size constant of the source. -/
def max_chunk : ℕ := 100000

/-- Embedding of RBFInterpolant evaluation: chunked computation of the
interpolated values followed, when extrapolation is disallowed, by
overwriting every query point outside the convex hull of the training
points with the fill value. -/
def rbfCall {Q N d : ℕ} (φ : Kernel (d + 1)) (oracle : (Fin (d + 1) → ℚ) → Bool)
    (x : Matrix (Fin N) (Fin (d + 1)) ℚ) (eps : Fin N → ℚ) (order : ℕ)
    (coeff : Fin (N + numPoly order (d + 1)) → ℚ) (extrapolate : Bool) (fill : ℚ)
    (xitp : Matrix (Fin Q) (Fin (d + 1)) ℚ) (diff : Fin (d + 1) → ℕ) (step : ℕ) :
    Fin Q → ℚ :=
  let out := evalLoop φ x eps order diff coeff xitp step 0 fun _ => 0
  if extrapolate then out
  else fun i => if in_hull oracle xitp x i then out i else fill

/-- Whether an Except value carries a successful result. -/
def exceptIsOk {ε α : Type _} : Except ε α → Bool
  | .ok _ => true
  | .error _ => false

/-- A basis kernel over points given as plain lists, for the
shape-checked constructor model below. -/
def ListKernel : Type :=
  List ℚ → List ℚ → ℚ → List ℕ → ℚ

/-- Turns a list kernel into a kernel over sized points. -/
def toFinKernel (φ : ListKernel) {D : ℕ} : Kernel D :=
  fun a b e diff => φ (List.ofFn a) (List.ofFn b) e (List.ofFn diff)

/-- Failures of the constructor when the inputs have inconsistent
sizes.  The source performs no explicit validation: the errors are the
numpy broadcast errors of the array operations, the failure of
np.zeros on a negative padding length, and the singular-system failure
of the solver. -/
inductive InitError where
  | broadcastMismatch
  | negativePad
  | singularSystem
  deriving DecidableEq

/-- Embedding of the RBFInterpolant constructor over plain lists, with
the shape semantics of the numpy operations it performs, in source
order: the basis evaluation broadcasts the shape parameter vector
against the N centers (length N or a single entry — the evaluator is
modelled from the spec), the row scaling broadcasts the weight vector
against the first N rows, the in-place observation scaling broadcasts
the weight vector against the value vector, and the solver pads the
value vector up to the augmented size.  Any other length combination
raises. -/
def rbfinitE (O : GCVOracle) (φ : ListKernel) (x : List (List ℚ)) (value : List ℚ)
    (wOpt epsOpt : Option (List ℚ)) (order : ℕ) (penalty : Damping) :
    Except InitError (List ℚ) :=
  let N := x.length
  let D := (x.headD []).length
  let eps := epsOpt.getD (List.replicate N 1)
  let w := wOpt.getD (List.replicate N 1)
  if _heps : eps.length = N ∨ eps.length = 1 then
    if _hw : w.length = N ∨ w.length = 1 then
      if _hwv : w.length = value.length ∨ w.length = 1 then
        if hv : value.length ≤ N + numPoly order D then
          let xM : Matrix (Fin N) (Fin D) ℚ :=
            Matrix.of fun i dd => (x.getD (i : ℕ) []).getD (dd : ℕ) 0
          let epsF : Fin N → ℚ := fun i =>
            if eps.length = 1 then eps.headD 1 else eps.getD i 1
          let wF : Fin N → ℚ := fun i =>
            if w.length = 1 then w.headD 1 else w.getD i 1
          let A := fitA (toFinKernel φ) xM epsF order wF
          let L := fitL (toFinKernel φ) xM epsF order
          let vw : Fin value.length → ℚ := fun i =>
            value.getD (i : ℕ) 0 * (if w.length = 1 then w.headD 1 else w.getD i 1)
          ((find_coeff O A L vw hv penalty).map fun c =>
            (List.finRange (N + numPoly order D)).map c).mapError
            fun _ => InitError.singularSystem
        else .error .negativePad
      else .error .broadcastMismatch
    else .error .broadcastMismatch
  else .error .broadcastMismatch

/-- C1: for an augmented matrix A of size M by M, a regularization
matrix L, an observation vector of length N and a fixed numeric
damping, the solver pads the observations with zeros up to length M and
returns the vector obtained by applying the inverse of ATA plus
damping squared times LTL, then the transpose of A, to the padded
observations. -/
theorem find_coeff_fixed_damping_spec {M K N : ℕ} (O : GCVOracle)
    (A : Matrix (Fin M) (Fin M) ℚ) (L : Matrix (Fin K) (Fin M) ℚ)
    (value : Fin N → ℚ) (h : N ≤ M) (damping : ℚ)
    (hdet : (Aᵀ * A + damping ^ 2 • (Lᵀ * L)).det ≠ 0) :
    find_coeff O A L value h (.fixed damping) =
      .ok (((Aᵀ * A + damping ^ 2 • (Lᵀ * L))⁻¹ * Aᵀ).mulVec (padValue h value)) := by
  simp only [find_coeff]
  rw [detQ_eq_det, if_neg hdet, matInv_eq_inv]

/-- Witness for C1 at a concrete one-by-one system. -/
theorem find_coeff_fixed_damping_spec_witness :
    ((!![(1:ℚ)]ᵀ * !![(1:ℚ)] + (3:ℚ) ^ 2 • (!![(0:ℚ)]ᵀ * !![(0:ℚ)])).det ≠ 0) ∧
      find_coeff ⟨fun _ => 1, fun _ g => g⟩ !![(1:ℚ)] !![(0:ℚ)] ![2] (le_refl 1)
          (.fixed 3) =
        .ok (((!![(1:ℚ)]ᵀ * !![(1:ℚ)] + (3:ℚ) ^ 2 • (!![(0:ℚ)]ᵀ * !![(0:ℚ)]))⁻¹ *
            !![(1:ℚ)]ᵀ).mulVec (padValue (le_refl 1) ![2])) := by
  have hdet : (!![(1:ℚ)]ᵀ * !![(1:ℚ)] + (3:ℚ) ^ 2 • (!![(0:ℚ)]ᵀ * !![(0:ℚ)])).det ≠ 0 := by
    norm_num [Matrix.det_fin_one, Matrix.mul_apply, Fin.sum_univ_one]
  exact ⟨hdet, find_coeff_fixed_damping_spec _ _ _ _ _ _ hdet⟩

/-- C2: the coefficient matrix has the basis values between the
training points as its top-left N by N block, the monomial values at
the training points as its top-right N by P block, the transpose of
that monomial block as its bottom-left P by N block, and zero as its
bottom-right P by P block. -/
theorem coefficient_matrix_blocks {N D : ℕ} (φ : Kernel D) (x : Matrix (Fin N) (Fin D) ℚ)
    (eps : Fin N → ℚ) (order : ℕ) :
    (∀ i j : Fin N,
        coefficient_matrix φ x eps order (Fin.castAdd _ i) (Fin.castAdd _ j) =
          basisMatrix φ x x eps (fun _ => 0) i j) ∧
      (∀ (i : Fin N) (q : Fin (numPoly order D)),
        coefficient_matrix φ x eps order (Fin.castAdd _ i) (Fin.natAdd N q) =
          mvmonos x order (fun _ => 0) i q) ∧
      (∀ (i : Fin N) (q : Fin (numPoly order D)),
        coefficient_matrix φ x eps order (Fin.natAdd N q) (Fin.castAdd _ i) =
          mvmonos x order (fun _ => 0) i q) ∧
      (∀ q r : Fin (numPoly order D),
        coefficient_matrix φ x eps order (Fin.natAdd N q) (Fin.natAdd N r) = 0) := by
  refine ⟨fun i j => ?_, fun i q => ?_, fun i q => ?_, fun q r => ?_⟩
  · simp only [coefficient_matrix, Matrix.of_apply, Fin.coe_castAdd]
    rw [dif_pos i.isLt, dif_pos j.isLt]
  · simp only [coefficient_matrix, Matrix.of_apply, Fin.coe_castAdd, Fin.coe_natAdd]
    rw [dif_pos i.isLt, dif_neg (by omega)]
    simp [Nat.add_sub_cancel_left]
  · simp only [coefficient_matrix, Matrix.of_apply, Fin.coe_castAdd, Fin.coe_natAdd]
    rw [dif_neg (by omega), dif_pos i.isLt]
    simp [Nat.add_sub_cancel_left]
  · simp only [coefficient_matrix, Matrix.of_apply, Fin.coe_natAdd]
    rw [dif_neg (by omega)]
    rw [dif_neg (by omega)]

/-- C3: the regularization matrix built at fit time is the sum, over
the spatial dimensions, of the regularization matrices differentiated
by the pure second derivative in each coordinate direction. -/
theorem fitL_eq_sum_laplacian {N D : ℕ} (φ : Kernel D) (x : Matrix (Fin N) (Fin D) ℚ)
    (eps : Fin N → ℚ) (order : ℕ) :
    fitL φ x eps order =
      ∑ i : Fin D, regularization_matrix φ x eps order fun dd => if dd = i then 2 else 0 := by
  rw [fitL, laplacian_diff_op, List.map_map, Fin.sum_univ_def]
  simp [Function.comp_def, one_smul]

/-- C4: in GCV mode the objective handed to the scalar minimizer is the
generalized cross validation score, the ratio of M times the misfit to
the square of M minus the trace of A times its damped generalized
inverse, with the damping equal to ten to the search variable (so its
square is ten to twice the search variable); after minimization the
solver solves the fixed-damping system at ten to the minimizer result.
The observation vector here is the zero-padded one, as the polynomial
rows carry no observation. -/
theorem gcv_objective_and_solve {M K N : ℕ} (O : GCVOracle) (A : Matrix (Fin M) (Fin M) ℚ)
    (L : Matrix (Fin K) (Fin M) ℚ) (value : Fin N → ℚ) (h : N ≤ M) :
    (∀ dlog : ℚ,
        predictive_error O (Aᵀ * A) (Lᵀ * L) A (padValue h value) dlog =
          ((M : ℚ) *
              Matrix.dotProduct
                (A.mulVec (((Aᵀ * A + O.pow10 dlog ^ 2 • (Lᵀ * L))⁻¹ * Aᵀ).mulVec
                    (padValue h value)) - padValue h value)
                (A.mulVec (((Aᵀ * A + O.pow10 dlog ^ 2 • (Lᵀ * L))⁻¹ * Aᵀ).mulVec
                    (padValue h value)) - padValue h value)) /
            (((M : ℚ) -
                (A * ((Aᵀ * A + O.pow10 dlog ^ 2 • (Lᵀ * L))⁻¹ * Aᵀ)).trace) ^ 2)) ∧
      find_coeff O A L value h .gcv =
        find_coeff O A L value h
          (.fixed (O.pow10
            (O.fmin (predictive_error O (Aᵀ * A) (Lᵀ * L) A (padValue h value)) 0))) := by
  constructor
  · intro dlog
    simp only [predictive_error, matInv_eq_inv, product_trace_eq_trace]
  · simp only [find_coeff]

/-- Witness for C4 at a concrete one-by-one system. -/
theorem gcv_objective_and_solve_witness :
    (∀ dlog : ℚ,
        predictive_error ⟨fun _ => 1, fun _ g => g⟩ (!![(1:ℚ)]ᵀ * !![(1:ℚ)])
            (!![(0:ℚ)]ᵀ * !![(0:ℚ)]) !![(1:ℚ)] (padValue (le_refl 1) ![2]) dlog =
          ((1 : ℚ) *
              Matrix.dotProduct
                (!![(1:ℚ)].mulVec (((!![(1:ℚ)]ᵀ * !![(1:ℚ)] +
                    (GCVOracle.mk (fun _ => 1) fun _ g => g).pow10 dlog ^ 2 •
                      (!![(0:ℚ)]ᵀ * !![(0:ℚ)]))⁻¹ * !![(1:ℚ)]ᵀ).mulVec
                    (padValue (le_refl 1) ![2])) - padValue (le_refl 1) ![2])
                (!![(1:ℚ)].mulVec (((!![(1:ℚ)]ᵀ * !![(1:ℚ)] +
                    (GCVOracle.mk (fun _ => 1) fun _ g => g).pow10 dlog ^ 2 •
                      (!![(0:ℚ)]ᵀ * !![(0:ℚ)]))⁻¹ * !![(1:ℚ)]ᵀ).mulVec
                    (padValue (le_refl 1) ![2])) - padValue (le_refl 1) ![2])) /
            (((1 : ℚ) -
                (!![(1:ℚ)] * ((!![(1:ℚ)]ᵀ * !![(1:ℚ)] +
                    (GCVOracle.mk (fun _ => 1) fun _ g => g).pow10 dlog ^ 2 •
                      (!![(0:ℚ)]ᵀ * !![(0:ℚ)]))⁻¹ * !![(1:ℚ)]ᵀ)).trace) ^ 2)) ∧
      find_coeff ⟨fun _ => 1, fun _ g => g⟩ !![(1:ℚ)] !![(0:ℚ)] ![2] (le_refl 1) .gcv =
        find_coeff ⟨fun _ => 1, fun _ g => g⟩ !![(1:ℚ)] !![(0:ℚ)] ![2] (le_refl 1)
          (.fixed ((GCVOracle.mk (fun _ => 1) fun _ g => g).pow10
            ((GCVOracle.mk (fun _ => 1) fun _ g => g).fmin
              (predictive_error ⟨fun _ => 1, fun _ g => g⟩ (!![(1:ℚ)]ᵀ * !![(1:ℚ)])
                (!![(0:ℚ)]ᵀ * !![(0:ℚ)]) !![(1:ℚ)] (padValue (le_refl 1) ![2])) 0))) :=
  gcv_objective_and_solve ⟨fun _ => 1, fun _ g => g⟩ !![(1:ℚ)] !![(0:ℚ)] ![2] (le_refl 1)

/-- C7: the weight vector scales exactly the first N rows of the
augmented matrix and the observation vector entrywise, while the
polynomial constraint rows and the regularization matrix are left
unscaled: the constructor hands the solver a regularization matrix
built without any reference to the weights. -/
theorem weights_scale_data_rows {N D : ℕ} (O : GCVOracle) (φ : Kernel D)
    (x : Matrix (Fin N) (Fin D) ℚ) (value w : Fin N → ℚ) (epsOpt : Option (Fin N → ℚ))
    (order : ℕ) (ex : Bool) (fill : ℚ) (damping : Damping) :
    (∀ (i : Fin N) (j : Fin (N + numPoly order D)),
        fitA φ x (epsOpt.getD fun _ => 1) order w (Fin.castAdd _ i) j =
          w i * coefficient_matrix φ x (epsOpt.getD fun _ => 1) order (Fin.castAdd _ i) j) ∧
      (∀ (q : Fin (numPoly order D)) (j : Fin (N + numPoly order D)),
        fitA φ x (epsOpt.getD fun _ => 1) order w (Fin.natAdd N q) j =
          coefficient_matrix φ x (epsOpt.getD fun _ => 1) order (Fin.natAdd N q) j) ∧
      (∀ i, fitValue value w i = value i * w i) ∧
      ((rbfinit O φ x value (some w) epsOpt order ex fill damping).coeff =
        find_coeff O (fitA φ x (epsOpt.getD fun _ => 1) order w)
          (fitL φ x (epsOpt.getD fun _ => 1) order) (fitValue value w)
          (Nat.le_add_right N _) damping) := by
  refine ⟨fun i j => ?_, fun q j => ?_, fun i => rfl, rfl⟩
  · simp only [fitA, Matrix.of_apply, Fin.coe_castAdd]
    rw [dif_pos i.isLt]
  · simp only [fitA, Matrix.of_apply, Fin.coe_natAdd]
    rw [dif_neg (by omega)]

/-- C10: after construction with an explicit weight vector, the
caller-provided observation buffer holds its old entries multiplied by
the corresponding weights: the constructor scales the array in place
without copying it. -/
theorem rbfinit_scales_caller_value_buffer {N D : ℕ} (O : GCVOracle) (φ : Kernel D)
    (x : Matrix (Fin N) (Fin D) ℚ) (value w : Fin N → ℚ) (epsOpt : Option (Fin N → ℚ))
    (order : ℕ) (ex : Bool) (fill : ℚ) (damping : Damping) :
    (rbfinit O φ x value (some w) epsOpt order ex fill damping).valueBuf =
      fun i => value i * w i := rfl

theorem foldl_min_le_init (t : List ℚ) : ∀ a : ℚ, t.foldl min a ≤ a := by
  induction t with
  | nil => intro a; exact le_refl a
  | cons c t ih => intro a; exact le_trans (ih (min a c)) (min_le_left a c)

theorem foldl_min_le_mem (t : List ℚ) : ∀ a b : ℚ, b ∈ t → t.foldl min a ≤ b := by
  induction t with
  | nil => intro a b hb; cases hb
  | cons c t ih =>
    intro a b hb
    rcases List.mem_cons.mp hb with h | h
    · subst h; exact le_trans (foldl_min_le_init t (min a b)) (min_le_right a b)
    · exact ih (min a c) b h

theorem foldl_min_mem_or (t : List ℚ) : ∀ a : ℚ, t.foldl min a = a ∨ t.foldl min a ∈ t := by
  induction t with
  | nil => intro a; exact Or.inl rfl
  | cons c t ih =>
    intro a
    rcases ih (min a c) with h | h
    · rcases min_choice a c with hm | hm
      · left; rw [List.foldl_cons, h, hm]
      · right; rw [List.foldl_cons, h, hm]; exact List.mem_cons_self c t
    · right; exact List.mem_cons_of_mem c h

theorem npMin_mem {l : List ℚ} (hl : l ≠ []) : npMin l ∈ l := by
  match l, hl with
  | a :: t, _ =>
    rcases foldl_min_mem_or t a with h | h
    · rw [npMin, h]; exact List.mem_cons_self a t
    · rw [npMin]; exact List.mem_cons_of_mem a h

theorem npMin_le {l : List ℚ} {b : ℚ} (hb : b ∈ l) : npMin l ≤ b := by
  match l, hb with
  | a :: t, hb =>
    rcases List.mem_cons.mp hb with h | h
    · subst h; rw [npMin]; exact foldl_min_le_init t b
    · rw [npMin]; exact foldl_min_le_mem t a b h

theorem npMin_le_iff {l : List ℚ} (hl : l ≠ []) (c : ℚ) :
    npMin l ≤ c ↔ ∃ b ∈ l, b ≤ c := by
  constructor
  · intro h; exact ⟨npMin l, npMin_mem hl, h⟩
  · rintro ⟨b, hb, hbc⟩; exact le_trans (npMin_le hb) hbc

theorem foldl_max_init_le (t : List ℚ) : ∀ a : ℚ, a ≤ t.foldl max a := by
  induction t with
  | nil => intro a; exact le_refl a
  | cons c t ih => intro a; exact le_trans (le_max_left a c) (ih (max a c))

theorem foldl_max_mem_le (t : List ℚ) : ∀ a b : ℚ, b ∈ t → b ≤ t.foldl max a := by
  induction t with
  | nil => intro a b hb; cases hb
  | cons c t ih =>
    intro a b hb
    rcases List.mem_cons.mp hb with h | h
    · subst h; exact le_trans (le_max_right a b) (foldl_max_init_le t (max a b))
    · exact ih (max a c) b h

theorem foldl_max_mem_or (t : List ℚ) : ∀ a : ℚ, t.foldl max a = a ∨ t.foldl max a ∈ t := by
  induction t with
  | nil => intro a; exact Or.inl rfl
  | cons c t ih =>
    intro a
    rcases ih (max a c) with h | h
    · rcases max_choice a c with hm | hm
      · left; rw [List.foldl_cons, h, hm]
      · right; rw [List.foldl_cons, h, hm]; exact List.mem_cons_self c t
    · right; exact List.mem_cons_of_mem c h

theorem npMax_mem {l : List ℚ} (hl : l ≠ []) : npMax l ∈ l := by
  match l, hl with
  | a :: t, _ =>
    rcases foldl_max_mem_or t a with h | h
    · rw [npMax, h]; exact List.mem_cons_self a t
    · rw [npMax]; exact List.mem_cons_of_mem a h

theorem le_npMax {l : List ℚ} {b : ℚ} (hb : b ∈ l) : b ≤ npMax l := by
  match l, hb with
  | a :: t, hb =>
    rcases List.mem_cons.mp hb with h | h
    · subst h; rw [npMax]; exact foldl_max_init_le t b
    · rw [npMax]; exact foldl_max_mem_le t a b h

theorem le_npMax_iff {l : List ℚ} (hl : l ≠ []) (c : ℚ) :
    c ≤ npMax l ↔ ∃ b ∈ l, c ≤ b := by
  constructor
  · intro h; exact ⟨npMax l, npMax_mem hl, h⟩
  · rintro ⟨b, hb, hbc⟩; exact le_trans hbc (le_npMax hb)

theorem mem_entriesList_one {n : ℕ} (hull : Matrix (Fin n) (Fin 1) ℚ) (b : ℚ) :
    b ∈ entriesList hull ↔ ∃ i : Fin n, b = hull i 0 := by
  constructor
  · intro hb
    rcases List.mem_flatMap.mp hb with ⟨i, _, hmem⟩
    rcases List.mem_map.mp hmem with ⟨j, _, hj⟩
    refine ⟨i, ?_⟩
    rw [← hj]
    congr
    exact Subsingleton.elim _ _
  · rintro ⟨i, rfl⟩
    exact List.mem_flatMap.mpr
      ⟨i, List.mem_finRange i, List.mem_map.mpr ⟨0, List.mem_finRange 0, rfl⟩⟩

theorem entriesList_ne_nil {n : ℕ} (hN : 0 < n) (hull : Matrix (Fin n) (Fin 1) ℚ) :
    entriesList hull ≠ [] :=
  List.ne_nil_of_mem ((mem_entriesList_one hull _).mpr ⟨⟨0, hN⟩, rfl⟩)

theorem interpolation_matrix_chunk_row {Q N D : ℕ} (φ : Kernel D)
    (xitp : Matrix (Fin Q) (Fin D) ℚ) (x : Matrix (Fin N) (Fin D) ℚ) (eps : Fin N → ℚ)
    (order : ℕ) (diff : Fin D → ℕ) (n len : ℕ) (h : n + len ≤ Q) (k : Fin len)
    (hk : n + (k : ℕ) < Q) (j : Fin (N + numPoly order D)) :
    interpolation_matrix φ (chunkPts xitp n len h) x eps order diff k j =
      interpolation_matrix φ xitp x eps order diff ⟨n + (k : ℕ), hk⟩ j := rfl

theorem chunk_mulVec_entry {Q N D : ℕ} (φ : Kernel D) (xitp : Matrix (Fin Q) (Fin D) ℚ)
    (x : Matrix (Fin N) (Fin D) ℚ) (eps : Fin N → ℚ) (order : ℕ) (diff : Fin D → ℕ)
    (coeff : Fin (N + numPoly order D) → ℚ) (n len : ℕ) (h : n + len ≤ Q) (k : Fin len)
    (hk : n + (k : ℕ) < Q) :
    (interpolation_matrix φ (chunkPts xitp n len h) x eps order diff).mulVec coeff k =
      (interpolation_matrix φ xitp x eps order diff).mulVec coeff ⟨n + (k : ℕ), hk⟩ := by
  simp only [Matrix.mulVec, Matrix.dotProduct]
  exact Finset.sum_congr rfl fun j _ =>
    congrArg (fun z => z * coeff j)
      (interpolation_matrix_chunk_row φ xitp x eps order diff n len h k hk j)

theorem evalLoop_eq {Q N D : ℕ} (φ : Kernel D) (x : Matrix (Fin N) (Fin D) ℚ)
    (eps : Fin N → ℚ) (order : ℕ) (diff : Fin D → ℕ)
    (coeff : Fin (N + numPoly order D) → ℚ) (xitp : Matrix (Fin Q) (Fin D) ℚ)
    (step : ℕ) (hstep : 0 < step) (n : ℕ) (out : Fin Q → ℚ) :
    evalLoop φ x eps order diff coeff xitp step n out = fun i : Fin Q =>
      if n ≤ (i : ℕ) then
        (interpolation_matrix φ xitp x eps order diff).mulVec coeff i
      else out i := by
  rw [evalLoop.eq_def]
  split
  · next hcond =>
    rw [evalLoop_eq φ x eps order diff coeff xitp step hstep (n + step)]
    funext i
    have hiQ := i.isLt
    by_cases h1 : n + step ≤ (i : ℕ)
    · simp only [if_pos h1, if_pos (show n ≤ (i : ℕ) by omega)]
    · simp only [if_neg h1]
      by_cases h2 : n ≤ (i : ℕ)
      · have hin : (i : ℕ) < n + (min (n + step) Q - n) := by omega
        simp only [dif_pos (And.intro h2 hin), if_pos h2]
        rw [chunk_mulVec_entry φ xitp x eps order diff coeff n
          (min (n + step) Q - n) (by omega) ⟨(i : ℕ) - n, by omega⟩ (by omega)]
        congr 1
        exact Fin.ext (show n + ((i : ℕ) - n) = (i : ℕ) by omega)
      · simp only [dif_neg (fun hc : _ ∧ _ => h2 hc.1), if_neg h2]
  · next hcond =>
    funext i
    have hiQ := i.isLt
    rw [if_neg (by omega)]
termination_by Q - n
decreasing_by omega

/-- C5: chunked evaluation is invariant under the chunk size.  For
every stored interpolant state, derivative specification and query set,
any two positive chunk sizes produce the same output at every query
point, so evaluating all points in one chunk and evaluating them split
into chunks of any size agree. -/
theorem rbfCall_chunk_invariant {Q N d : ℕ} (φ : Kernel (d + 1))
    (oracle : (Fin (d + 1) → ℚ) → Bool) (x : Matrix (Fin N) (Fin (d + 1)) ℚ)
    (eps : Fin N → ℚ) (order : ℕ) (coeff : Fin (N + numPoly order (d + 1)) → ℚ)
    (ex : Bool) (fill : ℚ) (xitp : Matrix (Fin Q) (Fin (d + 1)) ℚ)
    (diff : Fin (d + 1) → ℕ) (step1 step2 : ℕ) (h1 : 0 < step1) (h2 : 0 < step2) :
    rbfCall φ oracle x eps order coeff ex fill xitp diff step1 =
      rbfCall φ oracle x eps order coeff ex fill xitp diff step2 := by
  simp only [rbfCall]
  rw [evalLoop_eq φ x eps order diff coeff xitp step1 h1,
    evalLoop_eq φ x eps order diff coeff xitp step2 h2]

/-- Concrete data for the evaluation witnesses: a single training point
at the origin of the line, a constant zero kernel, an oracle accepting
every point. -/
def w1Mat : Matrix (Fin 1) (Fin 1) ℚ := Matrix.of fun _ _ => 0

def w1Kernel : Kernel 1 := fun _ _ _ _ => 0

def w1Oracle : (Fin 1 → ℚ) → Bool := fun _ => true

def w1Coeff : Fin (1 + numPoly 0 1) → ℚ := fun _ => 0

def w1Eps : Fin 1 → ℚ := fun _ => 1

def w1Diff : Fin 1 → ℕ := fun _ => 0

/-- Witness for C5 at a concrete one-point interpolant, chunk sizes one
and two. -/
theorem rbfCall_chunk_invariant_witness :
    0 < 1 ∧ 0 < 2 ∧
      rbfCall w1Kernel w1Oracle w1Mat w1Eps 0 w1Coeff true 0 w1Mat w1Diff 1 =
        rbfCall w1Kernel w1Oracle w1Mat w1Eps 0 w1Coeff true 0 w1Mat w1Diff 2 :=
  ⟨Nat.one_pos, Nat.zero_lt_two,
    rbfCall_chunk_invariant _ _ _ _ _ _ _ _ _ _ _ _ Nat.one_pos Nat.zero_lt_two⟩

/-- C6: with extrapolation disallowed, a query point outside the convex
hull of the training points receives exactly the fill value, a query
point inside receives the row of the interpolation matrix times the
stored coefficients, and in dimension one a point is inside exactly
when it lies between the minimum and the maximum of the training
points, bounds included. -/
theorem rbfCall_hull_gating {Q N d : ℕ} (φ : Kernel (d + 1))
    (oracle : (Fin (d + 1) → ℚ) → Bool) (x : Matrix (Fin N) (Fin (d + 1)) ℚ)
    (eps : Fin N → ℚ) (order : ℕ) (coeff : Fin (N + numPoly order (d + 1)) → ℚ)
    (fill : ℚ) (xitp : Matrix (Fin Q) (Fin (d + 1)) ℚ) (diff : Fin (d + 1) → ℕ)
    (step : ℕ) (hstep : 0 < step) (hN : 0 < N) :
    (∀ i, in_hull oracle xitp x i = false →
        rbfCall φ oracle x eps order coeff false fill xitp diff step i = fill) ∧
      (∀ i, in_hull oracle xitp x i = true →
        rbfCall φ oracle x eps order coeff false fill xitp diff step i =
          (interpolation_matrix φ xitp x eps order diff).mulVec coeff i) ∧
      (∀ _ : d = 0, ∀ i, in_hull oracle xitp x i = true ↔
        ((∃ j : Fin N, x j 0 ≤ xitp i 0) ∧ ∃ j : Fin N, xitp i 0 ≤ x j 0)) := by
  refine ⟨fun i hi => ?_, fun i hi => ?_, fun hd i => ?_⟩
  · simp only [rbfCall, Bool.false_eq_true, if_false, hi]
  · simp only [rbfCall, Bool.false_eq_true, if_false, hi, if_true]
    rw [evalLoop_eq φ x eps order diff coeff xitp step hstep 0]
    simp [Nat.zero_le]
  · subst hd
    simp only [in_hull]
    rw [if_neg (by omega)]
    simp only [decide_eq_true_eq]
    have hne := entriesList_ne_nil hN x
    refine and_congr ?_ ?_
    · rw [npMin_le_iff hne]
      constructor
      · rintro ⟨b, hb, hbc⟩
        obtain ⟨j, rfl⟩ := (mem_entriesList_one x b).mp hb
        exact ⟨j, hbc⟩
      · rintro ⟨j, hj⟩
        exact ⟨x j 0, (mem_entriesList_one x _).mpr ⟨j, rfl⟩, hj⟩
    · rw [le_npMax_iff hne]
      constructor
      · rintro ⟨b, hb, hbc⟩
        obtain ⟨j, rfl⟩ := (mem_entriesList_one x b).mp hb
        exact ⟨j, hbc⟩
      · rintro ⟨j, hj⟩
        exact ⟨x j 0, (mem_entriesList_one x _).mpr ⟨j, rfl⟩, hj⟩

/-- Witness for C6 at a concrete one-point one-dimensional
interpolant. -/
theorem rbfCall_hull_gating_witness :
    0 < 1 ∧ 0 < 1 ∧
      ((∀ i, in_hull w1Oracle w1Mat w1Mat i = false →
          rbfCall w1Kernel w1Oracle w1Mat w1Eps 0 w1Coeff false 5 w1Mat w1Diff 1 i = 5) ∧
        (∀ i, in_hull w1Oracle w1Mat w1Mat i = true →
          rbfCall w1Kernel w1Oracle w1Mat w1Eps 0 w1Coeff false 5 w1Mat w1Diff 1 i =
            (interpolation_matrix w1Kernel w1Mat w1Mat w1Eps 0 w1Diff).mulVec w1Coeff i) ∧
        (∀ _ : (0 : ℕ) = 0, ∀ i : Fin 1,
          in_hull w1Oracle w1Mat w1Mat i = true ↔
            ((∃ j : Fin 1, w1Mat j 0 ≤ w1Mat i 0) ∧
              ∃ j : Fin 1, w1Mat i 0 ≤ w1Mat j 0))) :=
  ⟨Nat.one_pos, Nat.one_pos,
    rbfCall_hull_gating _ _ _ _ _ _ _ _ _ _ Nat.one_pos Nat.one_pos⟩

theorem exceptIsOk_map_mapError {ε ε' α β : Type _} (X : Except ε α) (g : α → β)
    (f : ε → ε') : exceptIsOk ((X.map g).mapError f) = exceptIsOk X := by
  cases X <;> rfl

/-- C8 evidence: at the one-by-one system with unit matrix A and zero
regularization matrix, the GCV denominator is zero at every log-damping
value, so the score of the source is a division by zero (non-finite in
floating point); yet the solver, which has no guard, returns a
coefficient vector for every oracle instead of failing with an
IllConditioned error. -/
theorem gcv_no_illconditioned_guard :
    (∀ (O : GCVOracle) (dlog : ℚ),
        (1 : ℚ) - product_trace !![(1:ℚ)]
            (matInv (!![(1:ℚ)]ᵀ * !![(1:ℚ)] + O.pow10 dlog ^ 2 • (!![(0:ℚ)]ᵀ * !![(0:ℚ)])) *
              !![(1:ℚ)]ᵀ) = 0) ∧
      ∀ O : GCVOracle,
        exceptIsOk (find_coeff O !![(1:ℚ)] !![(0:ℚ)] ![1] (le_refl 1) .gcv) = true := by
  have h0 : (!![(0:ℚ)]ᵀ * !![(0:ℚ)]) = (0 : Matrix (Fin 1) (Fin 1) ℚ) := by
    ext i j
    fin_cases i; fin_cases j
    simp [Matrix.mul_apply]
  have h1 : (!![(1:ℚ)]ᵀ * !![(1:ℚ)]) = !![(1:ℚ)] := by
    ext i j
    fin_cases i; fin_cases j
    simp [Matrix.mul_apply]
  have hInv : matInv !![(1:ℚ)] = !![(1:ℚ)] := by
    ext i j
    fin_cases i; fin_cases j
    simp [matInv, detQ, adjQ]
  constructor
  · intro O dlog
    rw [h0, smul_zero, add_zero, h1, hInv]
    have h2 : (!![(1:ℚ)] * !![(1:ℚ)]ᵀ) = !![(1:ℚ)] := by
      ext i j
      fin_cases i; fin_cases j
      simp [Matrix.mul_apply]
    rw [h2]
    norm_num [product_trace, Fin.sum_univ_one]
  · intro O
    simp only [find_coeff]
    simp only [h0, h1, smul_zero, add_zero]
    rw [if_neg (by norm_num [detQ, Fin.sum_univ_one])]
    rfl

/-- A concrete list kernel, the squared distance of one-dimensional
points. -/
def sqKernelL : ListKernel := fun a b _ _ => (a.headD 0 - b.headD 0) ^ 2

/-- C9 counterexample: two training points but a weight vector of
length one.  The lengths disagree, yet construction succeeds, because
the numpy row scaling silently broadcasts the single weight over the
rows; no DimensionMismatch style failure occurs. -/
theorem rbfinitE_len1_weight_broadcast_ok :
    ([(2:ℚ)] : List ℚ).length ≠ ([[0],[1]] : List (List ℚ)).length ∧
      exceptIsOk (rbfinitE ⟨fun _ => 1, fun _ g => g⟩ sqKernelL [[0], [1]] [0, 1]
        (some [2]) none 0 (.fixed 0)) = true := by
  constructor
  · decide
  · simp only [rbfinitE, Option.getD]
    rw [dif_pos (by decide), dif_pos (by decide), dif_pos (by decide), dif_pos (by decide)]
    rw [exceptIsOk_map_mapError]
    simp only [find_coeff]
    norm_num [List.length_replicate, List.length_cons, List.length_nil, List.headD_cons]
    have hA : (fitA (toFinKernel sqKernelL)
        (Matrix.of fun i dd => (([[0], [1]] : List (List ℚ))[(i : ℕ)]?.getD [])[(0 : ℕ)]?.getD 0 :
          Matrix (Fin 2) (Fin 1) ℚ)
        (fun i => 1) 0 (fun i => 2) : Matrix (Fin 3) (Fin 3) ℚ) =
        !![0,2,2;2,0,2;1,1,0] := by
      ext i j
      fin_cases i <;> fin_cases j <;>
        norm_num [fitA, coefficient_matrix, basisMatrix, mvmonos, toFinKernel, sqKernelL,
          monomial_powers, tuplesSum, numPoly, monoDeriv, List.ofFn_succ, List.ofFn_zero,
          List.getD, List.headD_cons, List.length_cons, List.length_nil,
          List.getElem?_cons_zero, List.getElem?_cons_succ, Option.getD_some,
          List.range_succ, List.range_zero, List.flatMap_cons, List.flatMap_nil,
          List.map_cons, List.map_nil, List.append_nil, List.nil_append, Fin.cons_zero,
          Fin.prod_univ_succ]
    have hne : detQ ((fitA (toFinKernel sqKernelL)
        (Matrix.of fun i dd => (([[0], [1]] : List (List ℚ))[(i : ℕ)]?.getD [])[(0 : ℕ)]?.getD 0 :
          Matrix (Fin 2) (Fin 1) ℚ)
        (fun i => 1) 0 (fun i => 2) : Matrix (Fin 3) (Fin 3) ℚ)ᵀ *
        (fitA (toFinKernel sqKernelL)
        (Matrix.of fun i dd => (([[0], [1]] : List (List ℚ))[(i : ℕ)]?.getD [])[(0 : ℕ)]?.getD 0 :
          Matrix (Fin 2) (Fin 1) ℚ)
        (fun i => 1) 0 (fun i => 2) : Matrix (Fin 3) (Fin 3) ℚ)) ≠ 0 := by
      rw [hA]
      have hATA : ((!![(0:ℚ),2,2;2,0,2;1,1,0])ᵀ * !![(0:ℚ),2,2;2,0,2;1,1,0]) =
          !![5,1,4;1,5,4;4,4,8] := by
        ext i j
        fin_cases i <;> fin_cases j <;> norm_num [Matrix.mul_apply, Fin.sum_univ_succ]
      rw [hATA]
      norm_num [detQ, Fin.sum_univ_succ, Matrix.submatrix_apply, Fin.succAbove, Fin.lt_def]
    split
    · next hzero => exact absurd hzero hne
    · rfl

/-- C9 amended: construction fails with a broadcast shape error when
the shape parameter vector or the weight vector has a length other
than N or one, and, for at least two training points with the weight
left default, when the value vector length differs from N; a length-one
weight or shape vector that disagrees with N is instead silently
broadcast, as the counterexample shows. -/
theorem rbfinitE_shape_errors :
    (∀ (O : GCVOracle) (φ : ListKernel) (x : List (List ℚ)) (value : List ℚ)
        (wOpt : Option (List ℚ)) (eps : List ℚ) (order : ℕ) (penalty : Damping),
        eps.length ≠ x.length → eps.length ≠ 1 →
          rbfinitE O φ x value wOpt (some eps) order penalty = .error .broadcastMismatch) ∧
      (∀ (O : GCVOracle) (φ : ListKernel) (x : List (List ℚ)) (value : List ℚ)
          (w : List ℚ) (epsOpt : Option (List ℚ)) (order : ℕ) (penalty : Damping),
        w.length ≠ x.length → w.length ≠ 1 →
          rbfinitE O φ x value (some w) epsOpt order penalty = .error .broadcastMismatch) ∧
      ∀ (O : GCVOracle) (φ : ListKernel) (x : List (List ℚ)) (value : List ℚ)
          (epsOpt : Option (List ℚ)) (order : ℕ) (penalty : Damping),
        2 ≤ x.length → value.length ≠ x.length →
          rbfinitE O φ x value none epsOpt order penalty = .error .broadcastMismatch := by
  refine ⟨?_, ?_, ?_⟩
  · intro O φ x value wOpt eps order penalty h1 h2
    simp only [rbfinitE, Option.getD_some]
    rw [dif_neg (not_or.mpr ⟨h1, h2⟩)]
  · intro O φ x value w epsOpt order penalty h1 h2
    simp only [rbfinitE, Option.getD_some]
    by_cases hE : (epsOpt.getD (List.replicate x.length 1)).length = x.length ∨
      (epsOpt.getD (List.replicate x.length 1)).length = 1
    · rw [dif_pos hE, dif_neg (not_or.mpr ⟨h1, h2⟩)]
    · rw [dif_neg hE]
  · intro O φ x value epsOpt order penalty hN hv
    simp only [rbfinitE, Option.getD_none]
    by_cases hE : (epsOpt.getD (List.replicate x.length 1)).length = x.length ∨
      (epsOpt.getD (List.replicate x.length 1)).length = 1
    · rw [dif_pos hE,
        dif_pos (Or.inl (List.length_replicate x.length (1 : ℚ))),
        dif_neg (by
          rw [List.length_replicate]
          exact not_or.mpr ⟨fun hc => hv hc.symm, by omega⟩)]
    · rw [dif_neg hE]

/-- Witness for the amended C9 at concrete mismatched inputs. -/
theorem rbfinitE_shape_errors_witness :
    (rbfinitE ⟨fun _ => 1, fun _ g => g⟩ sqKernelL [[0]] [0] none (some [1, 1, 1]) 0
        (.fixed 0) = .error .broadcastMismatch) ∧
      (rbfinitE ⟨fun _ => 1, fun _ g => g⟩ sqKernelL [[0]] [0] (some [1, 1, 1]) none 0
        (.fixed 0) = .error .broadcastMismatch) ∧
      rbfinitE ⟨fun _ => 1, fun _ g => g⟩ sqKernelL [[0], [1]] [0, 1, 2] none none 0
        (.fixed 0) = .error .broadcastMismatch :=
  ⟨rbfinitE_shape_errors.1 _ _ _ _ _ _ _ _ (by decide) (by decide),
    rbfinitE_shape_errors.2.1 _ _ _ _ _ _ _ _ (by decide) (by decide),
    rbfinitE_shape_errors.2.2 _ _ _ _ _ _ _ (by decide) (by decide)⟩

end RBF
